import Mathlib

/-!
Verification of the sample-to-section aggregation pipeline of the
course2zwift converter (src/main.rs), shallowly embedded in Lean 4.

The embedding covers:

* `round` — the rasterization function (src/main.rs lines 289-291);
* the section aggregator `CourseBuilder::translate` (lines 179-236),
  embedded as a fold `translate` of a per-sample transition `stepFn`
  over an explicit state `AggState`;
* the time resolver `CourseBuilder::parse_records` (lines 142-171),
  embedded as `parse_records` over both time modes.

Machine integers (`u32`) are modelled as `Nat`.  The source computes
`round` through `f64`: `((offset as f64 / step as f64).round()) as u32`.
For all `u32` inputs the quotient `offset/step` lies below `2^32`, where
one ulp of an `f64` is at most `quotient * 2^-52`; a quotient that is not
an exact tie differs from the nearest half-integer by at least
`1/(2*step)`, which is larger than half an ulp throughout the range, and
an exact tie (a half-integer below `2^33`) is represented exactly, so the
`f64` computation agrees with exact rational arithmetic with ties rounded
half up (away from zero on non-negative values).  Hence `round` is
embedded as the integer formula `max step ((2*offset + step) / (2*step) * step)`.

The aggregator consumes samples whose time has already been divided by
the acceleration factor and whose power has already been scaled against
FTP (lines 185-191); the aggregation logic never inspects those values
beyond the fields carried by `TStep`, so `TStep` holds the transformed
time (a `Nat`) and transformed power (an `Option ℚ`) directly, and the
theorems below quantify over all transformed sample sequences.

`parse_records` works on the output of `parse_step`, i.e. on steps whose
`time` field is the `NaiveTime` parsed from `HH:MM:SS`, modelled as its
number of seconds from midnight.  In duration mode the source advances a
`NaiveTime` running clock with `last_time + Duration`, which chrono wraps
around at midnight; this is the `% 86400` in the embedding.  In time mode
the source compares `step.time < last_time` but never assigns `last_time`
in that branch; the embedding preserves this faithfully.
-/

namespace C2Z

/-- Rasterization function `round` (src/main.rs lines 289-291):
`max(step, ((offset as f64 / step as f64).round()) as u32 * step)`.
Embedded with exact integer half-up rounding, which agrees with the
`f64` computation on the whole `u32` range (see the file header). -/
def round (offset step : Nat) : Nat :=
  max step ((2 * offset + step) / (2 * step) * step)

/-- A text annotation attached to a section (`Hint`, lines 79-83). -/
structure Hint where
  offset : Nat
  text : String
deriving DecidableEq

/-- An output workout section (`Section`, lines 71-77).  `power` is the
transformed power fraction; the aggregator stores it without ever
comparing it, so its exact numeric type is irrelevant to control flow. -/
structure Section where
  start : Nat
  duration : Nat
  power : ℚ
  text : List Hint
deriving DecidableEq

/-- A sample as seen by the aggregator loop body: `local_time` (line 185)
and the scaled `power` (lines 187-191) are already computed. -/
structure TStep where
  t : Nat
  power : Option ℚ
  text : Option String
deriving DecidableEq

/-- The aggregator's state: the closed sections pushed to `out` so far and
the optional open section `cur_sec` (lines 180-181). -/
structure AggState where
  out : List Section
  cur : Option Section
deriving DecidableEq

/-- The duration refresh of the open section (lines 193-201): when the
sample's local time lies strictly beyond the open section's start, the
open section's duration becomes `round (local_time - start) raster`;
otherwise the section is left untouched. -/
def updSec (raster t : Nat) (sec : Section) : Section :=
  if sec.start < t then { sec with duration := round (t - sec.start) raster } else sec

/-- Annotation attachment to the open section (lines 204-211): push a hint
at offset `round offset 5` (where `offset` is `local_time - start`, or `0`
when the sample does not lie beyond the start), and pad the duration by
one raster unit when the rounded offset exceeds it. -/
def addHint (raster t : Nat) (txt : String) (sec : Section) : Section :=
  let ro := round (t - sec.start) 5
  { sec with
      text := sec.text ++ [⟨ro, txt⟩],
      duration := if sec.duration < ro then sec.duration + raster else sec.duration }

/-- The annotation list a freshly opened section starts with
(lines 222-224): the sample's own annotation at offset `0`, if any. -/
def hintsOf : Option String → List Hint
  | some txt => [⟨0, txt⟩]
  | none => []

/-- Opening a new section on a power-bearing sample (lines 212-225): its
start chains from the section being closed when one exists, and is the
rasterized local time otherwise; its duration starts at one raster unit. -/
def openSec (raster t : Nat) (p : ℚ) (tx : Option String) (cur : Option Section) : Section :=
  { start :=
      match cur with
      | some sec => sec.start + sec.duration
      | none => round t raster,
    duration := raster, power := p, text := hintsOf tx }

/-- One iteration of the aggregator loop (lines 183-228): refresh the open
section's duration, then dispatch on (open section?, power?, annotation?)
exactly as the source `match` does. -/
def stepFn (raster : Nat) (st : AggState) (s : TStep) : AggState :=
  let cur := st.cur.map (updSec raster s.t)
  match cur, s.power, s.text with
  | some sec, none, some txt => { st with cur := some (addHint raster s.t txt sec) }
  | cur, some p, _ => { out := st.out ++ cur.toList, cur := some (openSec raster s.t p s.text cur) }
  | cur, none, _ => { st with cur := cur }

/-- The aggregator loop folded over a sample list from a given state. -/
def procList (raster : Nat) (st : AggState) (steps : List TStep) : AggState :=
  steps.foldl (stepFn raster) st

/-- `CourseBuilder::translate` (lines 179-236): fold the samples from the
empty state, then flush the still-open section, if any (lines 231-233). -/
def translate (raster : Nat) (steps : List TStep) : List Section :=
  let st := procList raster ⟨[], none⟩ steps
  st.out ++ st.cur.toList

/-- A parsed input row after `parse_step` (lines 56-61, 173-177): the
`NaiveTime` is represented by its seconds from midnight. -/
structure Step where
  time : Nat
  watts : Option Nat
  text : Option String
deriving DecidableEq

/-- The two accepted time modes (line 88-91). -/
inductive TimeMode
  | time
  | duration
deriving DecidableEq

/-- The loop body of `parse_records` (lines 148-168), recursing over the
rows with the 1-based line counter and the `last_time` clock.  In duration
mode the row's time becomes the clock value before adding its duration and
the clock advances modulo 86400 (chrono's `NaiveTime + Duration` wraps at
midnight).  In time mode the row is rejected when its time is below
`last_time`; `last_time` is never reassigned there, exactly as in the
source. -/
def parseGo : TimeMode → Nat → Nat → List Step → Except String (List Step)
  | _, _, _, [] => .ok []
  | .duration, line, lastTime, step :: rest =>
    match parseGo .duration (line + 1) ((lastTime + step.time) % 86400) rest with
    | .error e => .error e
    | .ok rest2 => .ok ({ step with time := lastTime } :: rest2)
  | .time, line, lastTime, step :: rest =>
    if step.time < lastTime then
      .error ("Error in line " ++ toString line ++ ": time " ++ toString step.time ++
        " is before last time " ++ toString lastTime)
    else
      match parseGo .time (line + 1) lastTime rest with
      | .error e => .error e
      | .ok rest2 => .ok (step :: rest2)

/-- `CourseBuilder::parse_records` (lines 142-171): start at line 1 with
`last_time = 00:00:00`. -/
def parse_records (mode : TimeMode) (records : List Step) : Except String (List Step) :=
  parseGo mode 1 0 records

/-- Chaining relation between consecutive output sections: the later one
starts where the earlier one ends (line 216). -/
def chainRel (a b : Section) : Prop := b.start = a.start + a.duration

/-- Duration rasterization invariant for one section. -/
def durGood (r : Nat) (sec : Section) : Prop := r ≤ sec.duration ∧ sec.duration % r = 0

/-- Hint offset invariant for one section: every offset is `0` or a
positive multiple of `5`, and offsets after the first hint are never `0`. -/
def hintsGood (sec : Section) : Prop :=
  (∀ h ∈ sec.text, h.offset = 0 ∨ (5 ≤ h.offset ∧ h.offset % 5 = 0)) ∧
  (∀ h ∈ sec.text.tail, 5 ≤ h.offset ∧ h.offset % 5 = 0)

/-- Combined per-section invariant. -/
def secGood (r : Nat) (sec : Section) : Prop := durGood r sec ∧ hintsGood sec

/-- Aggregator state invariant: all sections (closed and open) satisfy the
per-section invariant, the whole chronology is chained, and closed
sections only exist once a section has been opened. -/
def stateInv (r : Nat) (st : AggState) : Prop :=
  (∀ sec ∈ st.out ++ st.cur.toList, secGood r sec) ∧
  List.Chain' chainRel (st.out ++ st.cur.toList) ∧
  (st.cur = none → st.out = [])

/-- The Rust unit test `test_round` (lines 293-302), checked against the
embedding. -/
theorem round_test_vectors :
    round 0 30 = 30 ∧ round 10 30 = 30 ∧ round 12 5 = 10 ∧ round 20 30 = 30 ∧
    round 30 30 = 30 ∧ round 40 30 = 30 ∧ round 50 30 = 60 := by
  decide

theorem le_round (o s : Nat) : s ≤ round o s := Nat.le_max_left _ _

theorem round_mod (o s : Nat) : round o s % s = 0 := by
  unfold round
  rcases max_choice s ((2 * o + s) / (2 * s) * s) with h | h <;> rw [h]
  · exact Nat.mod_self s
  · exact Nat.mul_mod_left _ s

theorem round_le_add (o s : Nat) (hs : 0 < s) : round o s ≤ o + s ∧ o ≤ round o s + s := by
  have h2s : 0 < 2 * s := by omega
  have hdm := Nat.div_add_mod (2 * o + s) (2 * s)
  have hlt : (2 * o + s) % (2 * s) < 2 * s := Nat.mod_lt _ h2s
  unfold round
  generalize hq : (2 * o + s) / (2 * s) = q at hdm ⊢
  generalize hm : (2 * o + s) % (2 * s) = m at hdm hlt
  have hdm2 : 2 * (q * s) + m = 2 * o + s := by rw [← hdm]; ring
  clear hdm hq hm
  rcases Nat.eq_zero_or_pos q with h0 | hpos
  · subst h0
    simp only [Nat.zero_mul, Nat.max_zero] at hdm2 ⊢
    omega
  · have hqs : s ≤ q * s := Nat.le_mul_of_pos_left s hpos
    rw [Nat.max_eq_right hqs]
    omega

theorem round_eq_floor (o s : Nat) (hs : 0 < s) :
    round o s = max s (Nat.floor ((o : ℚ) / s + 1 / 2) * s) := by
  have hsne : (s : ℚ) ≠ 0 := by positivity
  have key : (o : ℚ) / s + 1 / 2 = ((2 * o + s : ℕ) : ℚ) / ((2 * s : ℕ) : ℚ) := by
    push_cast
    field_simp
    ring
  rw [round, key, Nat.floor_div_nat, Nat.floor_natCast]

/-- C5: for non-negative `x` and positive raster `r`, `round x r` equals
`max r (round_half_up(x / r) * r)` (with the half-up rounding expressed
exactly over `ℚ` as `⌊x / r + 1 / 2⌋`), is a positive multiple of `r`, is
at least `r`, and lies within `r` of `x` on both sides. -/
theorem claim5_round_spec (x r : Nat) (hr : 0 < r) :
    round x r = max r (Nat.floor ((x : ℚ) / r + 1 / 2) * r) ∧
    (∃ k, 0 < k ∧ round x r = k * r) ∧
    r ≤ round x r ∧ round x r ≤ x + r ∧ x ≤ round x r + r := by
  refine ⟨round_eq_floor x r hr, ⟨round x r / r, ?_, ?_⟩, le_round x r,
    (round_le_add x r hr).1, (round_le_add x r hr).2⟩
  · exact (Nat.one_le_div_iff hr).mpr (le_round x r)
  · exact (Nat.div_mul_cancel (Nat.dvd_of_mod_eq_zero (round_mod x r))).symm

/-- Witness for C5 at `x = 50`, `r = 30`. -/
theorem claim5_round_spec_witness :
    round 50 30 = max 30 (Nat.floor ((50 : ℚ) / 30 + 1 / 2) * 30) ∧
    (∃ k, 0 < k ∧ round 50 30 = k * 30) ∧
    30 ≤ round 50 30 ∧ round 50 30 ≤ 50 + 30 ∧ 50 ≤ round 50 30 + 30 :=
  claim5_round_spec 50 30 (by decide)

theorem updSec_start (r t : Nat) (sec : Section) : (updSec r t sec).start = sec.start := by
  unfold updSec
  split <;> rfl

theorem updSec_text (r t : Nat) (sec : Section) : (updSec r t sec).text = sec.text := by
  unfold updSec
  split <;> rfl

theorem addHint_start (r t : Nat) (txt : String) (sec : Section) :
    (addHint r t txt sec).start = sec.start := rfl

theorem stepFn_ann (r : Nat) (st : AggState) (t : Nat) (txt : String) (sec : Section)
    (h : st.cur = some sec) :
    stepFn r st ⟨t, none, some txt⟩ =
      { st with cur := some (addHint r t txt (updSec r t sec)) } := by
  simp [stepFn, h]

theorem stepFn_ann_nocur (r : Nat) (st : AggState) (t : Nat) (txt : String)
    (h : st.cur = none) :
    stepFn r st ⟨t, none, some txt⟩ = { st with cur := none } := by
  simp [stepFn, h]

theorem stepFn_power (r : Nat) (st : AggState) (t : Nat) (p : ℚ) (tx : Option String) :
    stepFn r st ⟨t, some p, tx⟩ =
      { out := st.out ++ (st.cur.map (updSec r t)).toList,
        cur := some (openSec r t p tx (st.cur.map (updSec r t))) } := by
  cases h : st.cur <;> simp [stepFn, h]

theorem stepFn_inert (r : Nat) (st : AggState) (t : Nat) :
    stepFn r st ⟨t, none, none⟩ = { st with cur := st.cur.map (updSec r t) } := by
  cases h : st.cur <;> simp [stepFn, h]

theorem durGood_updSec (r t : Nat) (sec : Section) (h : durGood r sec) :
    durGood r (updSec r t sec) := by
  unfold updSec
  split
  · exact ⟨le_round _ _, round_mod _ _⟩
  · exact h

theorem hintsGood_updSec (r t : Nat) (sec : Section) (h : hintsGood sec) :
    hintsGood (updSec r t sec) := by
  unfold hintsGood at h ⊢
  rw [updSec_text]
  exact h

theorem hint_mem_tail_append (l : List Hint) (x y : Hint) (h : y ∈ (l ++ [x]).tail) :
    y ∈ l.tail ∨ y = x := by
  cases l with
  | nil => simp at h
  | cons a l =>
    simp only [List.cons_append, List.tail_cons] at h
    rcases List.mem_append.mp h with h1 | h1
    · exact Or.inl (by simpa using h1)
    · exact Or.inr (by simpa using h1)

theorem durGood_addHint (r t : Nat) (txt : String) (sec : Section) (h : durGood r sec) :
    durGood r (addHint r t txt sec) := by
  obtain ⟨h1, h2⟩ := h
  unfold addHint durGood
  constructor
  · dsimp only
    split <;> omega
  · dsimp only
    split
    · rw [Nat.add_mod_right]
      exact h2
    · exact h2

theorem hintsGood_addHint (r t : Nat) (txt : String) (sec : Section) (h : hintsGood sec) :
    hintsGood (addHint r t txt sec) := by
  obtain ⟨h1, h2⟩ := h
  constructor
  · intro hint hm
    rcases List.mem_append.mp hm with hm1 | hm1
    · exact h1 hint hm1
    · have : hint = ⟨round (t - sec.start) 5, txt⟩ := by simpa using hm1
      subst this
      exact Or.inr ⟨le_round _ _, round_mod _ _⟩
  · intro hint hm
    rcases hint_mem_tail_append _ _ _ hm with hm1 | hm1
    · exact h2 hint hm1
    · subst hm1
      exact ⟨le_round _ _, round_mod _ _⟩

theorem secGood_updSec (r t : Nat) (sec : Section) (h : secGood r sec) :
    secGood r (updSec r t sec) :=
  ⟨durGood_updSec r t sec h.1, hintsGood_updSec r t sec h.2⟩

theorem secGood_addHint (r t : Nat) (txt : String) (sec : Section) (h : secGood r sec) :
    secGood r (addHint r t txt sec) :=
  ⟨durGood_addHint r t txt sec h.1, hintsGood_addHint r t txt sec h.2⟩

theorem secGood_openSec (r t : Nat) (p : ℚ) (tx : Option String) (cur : Option Section) :
    secGood r (openSec r t p tx cur) := by
  refine ⟨⟨Nat.le_refl r, Nat.mod_self r⟩, ?_, ?_⟩
  · intro hint hm
    cases tx with
    | none => simp [openSec, hintsOf] at hm
    | some txt =>
      have : hint = ⟨0, txt⟩ := by simpa [openSec, hintsOf] using hm
      subst this
      exact Or.inl rfl
  · intro hint hm
    cases tx <;> simp [openSec, hintsOf] at hm

theorem chain_snoc_congr (l : List Section) (a b : Section) (hst : b.start = a.start)
    (h : List.Chain' chainRel (l ++ [a])) : List.Chain' chainRel (l ++ [b]) := by
  rw [List.chain'_append] at h ⊢
  obtain ⟨h1, _, h3⟩ := h
  refine ⟨h1, List.chain'_singleton b, ?_⟩
  intro x hx y hy
  simp only [List.head?_cons, Option.mem_def, Option.some.injEq] at hy
  subst hy
  have := h3 x hx a (by simp)
  unfold chainRel at this ⊢
  rw [hst, this]

theorem chain_snoc (l : List Section) (a b : Section)
    (h : List.Chain' chainRel (l ++ [a])) (hab : chainRel a b) :
    List.Chain' chainRel ((l ++ [a]) ++ [b]) := by
  rw [List.chain'_append]
  refine ⟨h, List.chain'_singleton b, ?_⟩
  intro x hx y hy
  simp only [List.head?_cons, Option.mem_def, Option.some.injEq] at hy
  subst hy
  rw [List.getLast?_concat] at hx
  simp only [Option.mem_def, Option.some.injEq] at hx
  subst hx
  exact hab

theorem stateInv_step (r : Nat) (st : AggState) (s : TStep) (h : stateInv r st) :
    stateInv r (stepFn r st s) := by
  obtain ⟨hmem, hchain, hnone⟩ := h
  rcases st with ⟨out, cur⟩
  rcases s with ⟨t, pw, tx⟩
  cases cur with
  | none =>
    have hout : out = [] := hnone rfl
    subst hout
    cases pw with
    | none =>
      cases tx with
      | none =>
        rw [stepFn_inert]
        exact ⟨hmem, hchain, fun _ => rfl⟩
      | some txt =>
        rw [stepFn_ann_nocur r _ t txt rfl]
        exact ⟨hmem, hchain, fun _ => rfl⟩
    | some p =>
      rw [stepFn_power]
      refine ⟨?_, ?_, by simp⟩
      · intro sec hm
        have hsec : sec = openSec r t p tx none := by simpa using hm
        rw [hsec]
        exact secGood_openSec r t p tx none
      · simp only [Option.map_none', Option.toList_none, Option.toList_some, List.append_nil,
          List.nil_append]
        exact List.chain'_singleton _
  | some sec =>
    have hg : secGood r sec := hmem sec (by simp)
    have hg1 : secGood r (updSec r t sec) := secGood_updSec r t sec hg
    have hchain1 : List.Chain' chainRel (out ++ [updSec r t sec]) :=
      chain_snoc_congr out sec (updSec r t sec) (updSec_start r t sec)
        (by simpa using hchain)
    cases pw with
    | none =>
      cases tx with
      | none =>
        rw [stepFn_inert]
        refine ⟨?_, by simpa using hchain1, by simp⟩
        intro s2 hm
        simp only [Option.map_some, Option.toList_some] at hm
        rcases List.mem_append.mp hm with hm1 | hm1
        · exact hmem s2 (by simp [hm1])
        · rw [List.mem_singleton.mp hm1]
          exact hg1
      | some txt =>
        rw [stepFn_ann r _ t txt sec rfl]
        have hg2 : secGood r (addHint r t txt (updSec r t sec)) :=
          secGood_addHint r t txt _ hg1
        refine ⟨?_, ?_, by simp⟩
        · intro s2 hm
          simp only [Option.toList_some] at hm
          rcases List.mem_append.mp hm with hm1 | hm1
          · exact hmem s2 (by simp [hm1])
          · rw [List.mem_singleton.mp hm1]
            exact hg2
        · simp only [Option.toList_some]
          exact chain_snoc_congr out sec _
            (by rw [addHint_start, updSec_start]) (by simpa using hchain)
    | some p =>
      rw [stepFn_power]
      have hrel : chainRel (updSec r t sec) (openSec r t p tx (some (updSec r t sec))) := rfl
      refine ⟨?_, ?_, by simp⟩
      · intro s2 hm
        simp only [Option.map_some, Option.toList_some] at hm
        rcases List.mem_append.mp hm with hm1 | hm1
        · rcases List.mem_append.mp hm1 with hm2 | hm2
          · exact hmem s2 (by simp [hm2])
          · rw [List.mem_singleton.mp hm2]
            exact hg1
        · rw [List.mem_singleton.mp hm1]
          exact secGood_openSec r t p tx _
      · simp only [Option.map_some, Option.toList_some]
        exact chain_snoc out (updSec r t sec) _ hchain1 hrel

theorem stateInv_procList (r : Nat) (steps : List TStep) (st : AggState) (h : stateInv r st) :
    stateInv r (procList r st steps) := by
  induction steps generalizing st with
  | nil => exact h
  | cons s rest ih => exact ih (stepFn r st s) (stateInv_step r st s h)

theorem stateInv_init (r : Nat) : stateInv r ⟨[], none⟩ := by
  refine ⟨?_, ?_, fun _ => rfl⟩ <;> simp [List.chain'_nil]

theorem translate_eq (r : Nat) (steps : List TStep) :
    translate r steps =
      (procList r ⟨[], none⟩ steps).out ++ (procList r ⟨[], none⟩ steps).cur.toList := rfl

theorem translate_inv (r : Nat) (steps : List TStep) :
    (∀ sec ∈ translate r steps, secGood r sec) ∧
      List.Chain' chainRel (translate r steps) := by
  have h := stateInv_procList r steps ⟨[], none⟩ (stateInv_init r)
  rw [translate_eq]
  exact ⟨h.1, h.2.1⟩

/-- C3: the aggregator's output sections are exactly contiguous — every
adjacent pair satisfies `later.start = earlier.start + earlier.duration`
— and consequently appear in non-decreasing start order. -/
theorem claim3_sections_chained (r : Nat) (steps : List TStep) :
    List.Chain' chainRel (translate r steps) ∧
    List.Chain' (fun a b => a.start ≤ b.start) (translate r steps) := by
  have h := (translate_inv r steps).2
  refine ⟨h, List.Chain'.imp ?_ h⟩
  intro a b hab
  rw [hab]
  exact Nat.le_add_right _ _

/-- C8: with a positive raster, every section of every intermediate
aggregator state (closed sections and the open one, after any prefix of
the input) and every section of the final output has a duration that is
at least one raster unit and a positive integer multiple of it. -/
theorem claim8_duration_raster (r : Nat) (steps : List TStep) (hr : 0 < r) :
    (∀ pfx : List TStep, pfx <+: steps →
      ∀ sec ∈ (procList r ⟨[], none⟩ pfx).out ++ (procList r ⟨[], none⟩ pfx).cur.toList,
        r ≤ sec.duration ∧ ∃ k, 0 < k ∧ sec.duration = k * r) ∧
    (∀ sec ∈ translate r steps, r ≤ sec.duration ∧ ∃ k, 0 < k ∧ sec.duration = k * r) := by
  have key : ∀ l : List TStep, ∀ sec ∈ (procList r ⟨[], none⟩ l).out ++
      (procList r ⟨[], none⟩ l).cur.toList,
      r ≤ sec.duration ∧ ∃ k, 0 < k ∧ sec.duration = k * r := by
    intro l sec hm
    have hg := (stateInv_procList r l ⟨[], none⟩ (stateInv_init r)).1 sec hm
    obtain ⟨⟨h1, h2⟩, _⟩ := hg
    refine ⟨h1, sec.duration / r, (Nat.one_le_div_iff hr).mpr h1, ?_⟩
    exact (Nat.div_mul_cancel (Nat.dvd_of_mod_eq_zero h2)).symm
  exact ⟨fun pfx _ => key pfx, by rw [translate_eq]; exact key steps⟩

/-- Witness for C8 at raster 30 on a single power sample. -/
theorem claim8_duration_raster_witness :
    30 ≤ (Section.mk 30 30 1 []).duration ∧
      ∃ k, 0 < k ∧ (Section.mk 30 30 1 []).duration = k * 30 :=
  (claim8_duration_raster 30 [⟨0, some 1, none⟩] (by decide)).2
    (Section.mk 30 30 1 []) (by decide)

theorem stepFn_hint_provenance (r : Nat) (st : AggState) (s : TStep) (sec2 : Section)
    (hsec : sec2 ∈ (stepFn r st s).out ++ (stepFn r st s).cur.toList)
    (hint : Hint) (hm : hint ∈ sec2.text) :
    (∃ sec1 ∈ st.out ++ st.cur.toList, hint ∈ sec1.text) ∨
    (s.power = none ∧ s.text = some hint.text ∧ (stepFn r st s).cur = some sec2 ∧
      5 ≤ hint.offset ∧ hint.offset % 5 = 0) ∨
    (s.power.isSome = true ∧ s.text = some hint.text ∧ (stepFn r st s).cur = some sec2 ∧
      hint.offset = 0) := by
  rcases st with ⟨out, cur⟩
  rcases s with ⟨t, pw, tx⟩
  cases cur with
  | none =>
    cases pw with
    | none =>
      cases tx with
      | none =>
        rw [stepFn_inert] at hsec
        exact Or.inl ⟨sec2, by simpa using hsec, hm⟩
      | some txt =>
        rw [stepFn_ann_nocur r _ t txt rfl] at hsec
        exact Or.inl ⟨sec2, by simpa using hsec, hm⟩
    | some p =>
      rw [stepFn_power] at hsec ⊢
      simp only [Option.map_none', Option.toList_none, List.append_nil,
        Option.toList_some] at hsec
      rcases List.mem_append.mp hsec with h1 | h1
      · exact Or.inl ⟨sec2, by simpa using h1, hm⟩
      · have hsec2 : sec2 = openSec r t p tx none := by simpa using h1
        subst hsec2
        cases tx with
        | none => simp [openSec, hintsOf] at hm
        | some txt =>
          have hh : hint = ⟨0, txt⟩ := by simpa [openSec, hintsOf] using hm
          subst hh
          exact Or.inr (Or.inr ⟨rfl, rfl, rfl, rfl⟩)
  | some sec =>
    cases pw with
    | some p =>
      rw [stepFn_power] at hsec ⊢
      simp only [Option.map_some', Option.toList_some] at hsec ⊢
      rcases List.mem_append.mp hsec with h1 | h1
      · rcases List.mem_append.mp h1 with h2 | h2
        · exact Or.inl ⟨sec2, by simp [h2], hm⟩
        · have hsec2 : sec2 = updSec r t sec := by simpa using h2
          subst hsec2
          rw [updSec_text] at hm
          exact Or.inl ⟨sec, by simp, hm⟩
      · have hsec2 : sec2 = openSec r t p tx (some (updSec r t sec)) := by simpa using h1
        subst hsec2
        cases tx with
        | none => simp [openSec, hintsOf] at hm
        | some txt =>
          have hh : hint = ⟨0, txt⟩ := by simpa [openSec, hintsOf] using hm
          subst hh
          exact Or.inr (Or.inr ⟨rfl, rfl, rfl, rfl⟩)
    | none =>
      cases tx with
      | none =>
        rw [stepFn_inert] at hsec
        simp only [Option.map_some', Option.toList_some] at hsec
        rcases List.mem_append.mp hsec with h1 | h1
        · exact Or.inl ⟨sec2, by simp [h1], hm⟩
        · have hsec2 : sec2 = updSec r t sec := by simpa using h1
          subst hsec2
          rw [updSec_text] at hm
          exact Or.inl ⟨sec, by simp, hm⟩
      | some txt =>
        rw [stepFn_ann r _ t txt sec rfl] at hsec ⊢
        simp only [Option.toList_some] at hsec
        rcases List.mem_append.mp hsec with h1 | h1
        · exact Or.inl ⟨sec2, by simp [h1], hm⟩
        · have hsec2 : sec2 = addHint r t txt (updSec r t sec) := by simpa using h1
          subst hsec2
          have hm2 : hint ∈ sec.text ++ [⟨round (t - sec.start) 5, txt⟩] := by
            have htext : (addHint r t txt (updSec r t sec)).text =
                sec.text ++ [⟨round (t - sec.start) 5, txt⟩] := by
              unfold addHint
              rw [updSec_text, updSec_start]
            rw [htext] at hm
            exact hm
          rcases List.mem_append.mp hm2 with h2 | h2
          · exact Or.inl ⟨sec, by simp, h2⟩
          · have hh : hint = ⟨round (t - sec.start) 5, txt⟩ := by simpa using h2
            subst hh
            exact Or.inr (Or.inl ⟨rfl, rfl, rfl, le_round _ _, round_mod _ _⟩)

theorem procList_hint_provenance (r : Nat) (steps : List TStep) (sec : Section)
    (hsec : sec ∈ (procList r ⟨[], none⟩ steps).out ++
      (procList r ⟨[], none⟩ steps).cur.toList)
    (hint : Hint) (hm : hint ∈ sec.text) :
    (5 ≤ hint.offset ∧ hint.offset % 5 = 0 ∧
      ∃ s ∈ steps, s.power = none ∧ s.text = some hint.text) ∨
    (hint.offset = 0 ∧ ∃ s ∈ steps, s.power.isSome = true ∧ s.text = some hint.text) := by
  induction steps using List.reverseRecOn generalizing sec with
  | nil => simp [procList] at hsec
  | append_singleton l s ih =>
    have hfold : procList r ⟨[], none⟩ (l ++ [s]) =
        stepFn r (procList r ⟨[], none⟩ l) s := by
      unfold procList
      rw [List.foldl_append, List.foldl_cons, List.foldl_nil]
    rw [hfold] at hsec
    rcases stepFn_hint_provenance r (procList r ⟨[], none⟩ l) s sec hsec hint hm with
      h1 | h2 | h3
    · obtain ⟨sec1, hsec1, hm1⟩ := h1
      rcases ih sec1 hsec1 hm1 with ⟨ha, hb, s1, hs1, hc⟩ | ⟨ha, s1, hs1, hc⟩
      · exact Or.inl ⟨ha, hb, s1, by simp [hs1], hc⟩
      · exact Or.inr ⟨ha, s1, by simp [hs1], hc⟩
    · exact Or.inl ⟨h2.2.2.2.1, h2.2.2.2.2, s, by simp, h2.1, h2.2.1⟩
    · exact Or.inr ⟨h3.2.2.2, s, by simp, h3.1, h3.2.1⟩

/-- C10: hint provenance in the aggregator. First, per step: every hint
present after a step either was already present before it, or was
attached by this annotation-only (powerless) sample to the open section
at offset `round local_offset 5` — at least 5 and a positive multiple of
5, never 0 — or is the offset-0 annotation carried by the power-bearing
sample that just opened the section it sits in. Second, over a whole run:
every hint of every output section either has an offset that is a
positive multiple of 5 and was attached by an annotation-only sample, or
has offset 0 and carries the annotation of a power-bearing (section-
opening) sample. Hence an annotation attached via an annotation-only
sample is never at offset 0, and an offset-0 annotation can only arise
from the sample whose power opened the section. -/
theorem claim10_hint_provenance (r : Nat) :
    (∀ (st : AggState) (s : TStep) (sec2 : Section),
      sec2 ∈ (stepFn r st s).out ++ (stepFn r st s).cur.toList →
      ∀ hint ∈ sec2.text,
        (∃ sec1 ∈ st.out ++ st.cur.toList, hint ∈ sec1.text) ∨
        (s.power = none ∧ s.text = some hint.text ∧ (stepFn r st s).cur = some sec2 ∧
          5 ≤ hint.offset ∧ hint.offset % 5 = 0) ∨
        (s.power.isSome = true ∧ s.text = some hint.text ∧
          (stepFn r st s).cur = some sec2 ∧ hint.offset = 0)) ∧
    (∀ (steps : List TStep) (sec : Section), sec ∈ translate r steps →
      ∀ hint ∈ sec.text,
        (5 ≤ hint.offset ∧ hint.offset % 5 = 0 ∧
          ∃ s ∈ steps, s.power = none ∧ s.text = some hint.text) ∨
        (hint.offset = 0 ∧ ∃ s ∈ steps, s.power.isSome = true ∧ s.text = some hint.text)) := by
  constructor
  · intro st s sec2 hsec hint hm
    exact stepFn_hint_provenance r st s sec2 hsec hint hm
  · intro steps sec hsec hint hm
    rw [translate_eq] at hsec
    exact procList_hint_provenance r steps sec hsec hint hm

/-- Witness for C10: a section opened without any annotation receives its
first hint from an annotation-only sample; although that hint sits at the
head of the hint list, its offset is 10 — a positive multiple of 5, not
0 — and the provenance theorem attributes it to the powerless sample. -/
theorem claim10_hint_provenance_witness :
    (∃ sec1 ∈ (AggState.mk [] (some (Section.mk 30 30 1 []))).out ++
        (AggState.mk [] (some (Section.mk 30 30 1 []))).cur.toList,
        (Hint.mk 10 "a") ∈ sec1.text) ∨
    ((TStep.mk 40 none (some "a")).power = none ∧
      (TStep.mk 40 none (some "a")).text = some (Hint.mk 10 "a").text ∧
      (stepFn 30 (AggState.mk [] (some (Section.mk 30 30 1 [])))
        (TStep.mk 40 none (some "a"))).cur = some (Section.mk 30 30 1 [Hint.mk 10 "a"]) ∧
      5 ≤ (Hint.mk 10 "a").offset ∧ (Hint.mk 10 "a").offset % 5 = 0) ∨
    ((TStep.mk 40 none (some "a")).power.isSome = true ∧
      (TStep.mk 40 none (some "a")).text = some (Hint.mk 10 "a").text ∧
      (stepFn 30 (AggState.mk [] (some (Section.mk 30 30 1 [])))
        (TStep.mk 40 none (some "a"))).cur = some (Section.mk 30 30 1 [Hint.mk 10 "a"]) ∧
      (Hint.mk 10 "a").offset = 0) :=
  (claim10_hint_provenance 30).1 (AggState.mk [] (some (Section.mk 30 30 1 [])))
    (TStep.mk 40 none (some "a")) (Section.mk 30 30 1 [Hint.mk 10 "a"]) (by decide)
    (Hint.mk 10 "a") (by decide)

theorem stepFn_size (r : Nat) (st : AggState) (s : TStep) :
    (stepFn r st s).out.length + (stepFn r st s).cur.toList.length =
      st.out.length + st.cur.toList.length + (if s.power.isSome then 1 else 0) := by
  rcases st with ⟨out, cur⟩
  rcases s with ⟨t, pw, tx⟩
  cases cur <;> cases pw <;> cases tx <;> simp [stepFn, updSec]

theorem procList_size (r : Nat) (steps : List TStep) (st : AggState) :
    (procList r st steps).out.length + (procList r st steps).cur.toList.length =
      st.out.length + st.cur.toList.length + steps.countP (fun s => s.power.isSome) := by
  induction steps generalizing st with
  | nil => simp [procList]
  | cons s rest ih =>
    have h1 : procList r st (s :: rest) = procList r (stepFn r st s) rest := rfl
    rw [h1, ih, stepFn_size, List.countP_cons]
    by_cases h : (s.power.isSome : Prop)
    · simp [h]
      omega
    · simp [h]

/-- C1 (amended): the aggregator opens one section per power-bearing
sample, whether or not consecutive transformed powers are equal, so the
number of output sections equals the number of power-bearing samples. -/
theorem claim1_sections_count (r : Nat) (steps : List TStep) :
    (translate r steps).length = (steps.filter fun s => s.power.isSome).length := by
  rw [translate_eq, List.length_append, procList_size, List.countP_eq_length_filter]
  simp

/-- C1 counterexample: two consecutive samples carrying the same
transformed power (1.00) produce two sections, not one, because the
aggregator never compares the new sample's power with the open section's
power. -/
theorem claim1_counterexample :
    (translate 30 [⟨0, some 1, none⟩, ⟨0, some 1, none⟩]).length = 2 ∧
    (translate 30 [⟨0, some 1, none⟩, ⟨0, some 1, none⟩]).length ≠ 1 := by
  constructor <;> decide

/-- C4 (amended): while a section is open, the phase-1 duration refresh
happens only for samples whose local time lies strictly beyond the open
section's start — then the duration becomes `round (t - start) raster` —
and a sample at or before the start leaves the duration (and the rest of
the state) unchanged; the closed sections are untouched either way. -/
theorem claim4_duration_update (r : Nat) (st : AggState) (t : Nat) (sec : Section)
    (h : st.cur = some sec) :
    (sec.start < t →
      (stepFn r st ⟨t, none, none⟩).cur =
        some { sec with duration := round (t - sec.start) r }) ∧
    (t ≤ sec.start → (stepFn r st ⟨t, none, none⟩).cur = some sec) ∧
    (stepFn r st ⟨t, none, none⟩).out = st.out := by
  rw [stepFn_inert, h]
  refine ⟨?_, ?_, rfl⟩
  · intro hlt
    simp [updSec, hlt]
  · intro hle
    have hnlt : ¬sec.start < t := by omega
    simp [updSec, hnlt]

/-- Witness for C4 (amended): a sample beyond the open section's start
refreshes the duration from 60 down to `round 40 30 = 30`. -/
theorem claim4_duration_update_witness :
    (stepFn 30 ⟨[], some ⟨30, 60, 1, []⟩⟩ ⟨70, none, none⟩).cur =
      some ⟨30, round (70 - 30) 30, 1, []⟩ :=
  (claim4_duration_update 30 ⟨[], some ⟨30, 60, 1, []⟩⟩ 70 ⟨30, 60, 1, []⟩ rfl).1 (by decide)

/-- C4 counterexample: the open section (start 30) had its duration
extended to 60 by a late annotation; a following sample at local time 30,
which is not strictly beyond the start, leaves the duration at 60, while
the claim's formula `round (max 0 (30 - 30)) 30` would reset it to 30. -/
theorem claim4_counterexample :
    translate 30 [⟨30, some 1, none⟩, ⟨70, none, some "a"⟩, ⟨30, none, none⟩] =
      [⟨30, 60, 1, [⟨40, "a"⟩]⟩] ∧
    round (30 - 30) 30 = 30 ∧ (60 : Nat) ≠ 30 :=
  ⟨rfl, rfl, by decide⟩

/-- C7: an annotation-only sample processed while a section is open
appends a hint at offset `round local_offset 5` (where `local_offset` is
`sample.time - start`, truncated at zero) to that section, and when the
rounded offset exceeds the section's current duration — the duration as
refreshed by this sample's phase-1 update — the duration grows by exactly
one raster unit, not up to the offset; the closed sections are untouched. -/
theorem claim7_annotation_append (r : Nat) (st : AggState) (t : Nat) (txt : String)
    (sec : Section) (h : st.cur = some sec) :
    (stepFn r st ⟨t, none, some txt⟩).out = st.out ∧
    ∃ sec2, (stepFn r st ⟨t, none, some txt⟩).cur = some sec2 ∧
      sec2.start = sec.start ∧ sec2.power = sec.power ∧
      sec2.text = sec.text ++ [⟨round (t - sec.start) 5, txt⟩] ∧
      sec2.duration =
        (let d := if sec.start < t then round (t - sec.start) r else sec.duration
         if d < round (t - sec.start) 5 then d + r else d) := by
  rw [stepFn_ann r st t txt sec h]
  refine ⟨rfl, addHint r t txt (updSec r t sec), rfl, ?_, ?_, ?_, ?_⟩
  · rw [addHint_start, updSec_start]
  · unfold addHint updSec
    by_cases hlt : sec.start < t <;> simp [hlt]
  · unfold addHint
    rw [updSec_text, updSec_start]
  · unfold addHint updSec
    by_cases hlt : sec.start < t <;> simp [hlt]

/-- Witness for C7: annotating the open section (start 30, duration 30)
at local time 70 appends a hint at offset 40 and pads the duration to 60. -/
theorem claim7_annotation_append_witness :
    (stepFn 30 ⟨[], some ⟨30, 30, 1, []⟩⟩ ⟨70, none, some "a"⟩).out = [] ∧
    ∃ sec2, (stepFn 30 ⟨[], some ⟨30, 30, 1, []⟩⟩ ⟨70, none, some "a"⟩).cur = some sec2 ∧
      sec2.start = 30 ∧ sec2.power = 1 ∧
      sec2.text = [] ++ [⟨round (70 - 30) 5, "a"⟩] ∧
      sec2.duration =
        (let d := if 30 < 70 then round (70 - 30) 30 else 30
         if d < round (70 - 30) 5 then d + 30 else d) :=
  claim7_annotation_append 30 ⟨[], some ⟨30, 30, 1, []⟩⟩ 70 "a" ⟨30, 30, 1, []⟩ rfl

theorem stepFn_no_power_nocur (r : Nat) (st : AggState) (s : TStep)
    (hcur : st.cur = none) (hs : s.power = none) : stepFn r st s = st := by
  rcases st with ⟨out, cur⟩
  rcases s with ⟨t, pw, tx⟩
  simp only at hcur hs
  subst hcur
  subst hs
  cases tx <;> rfl

theorem procList_no_power (r : Nat) (pre : List TStep) (hpre : ∀ p ∈ pre, p.power = none) :
    procList r ⟨[], none⟩ pre = ⟨[], none⟩ := by
  induction pre with
  | nil => rfl
  | cons s rest ih =>
    have h1 : procList r (⟨[], none⟩ : AggState) (s :: rest) =
        procList r (stepFn r ⟨[], none⟩ s) rest := rfl
    rw [h1, stepFn_no_power_nocur r _ s rfl (hpre s (by simp))]
    exact ih fun p hp => hpre p (by simp [hp])

/-- C9: an annotation-only (powerless) sample that arrives before any
section has been opened is silently discarded: the whole run produces
exactly the output it would produce without that sample, so its text
reaches no section and no error arises. -/
theorem claim9_discard_no_open (r : Nat) (pre : List TStep) (s : TStep) (post : List TStep)
    (hpre : ∀ p ∈ pre, p.power = none) (hs : s.power = none) :
    translate r (pre ++ s :: post) = translate r (pre ++ post) := by
  have key : List.foldl (stepFn r) (⟨[], none⟩ : AggState) (pre ++ s :: post) =
      List.foldl (stepFn r) (⟨[], none⟩ : AggState) (pre ++ post) := by
    rw [List.foldl_append, List.foldl_append]
    have h0 : List.foldl (stepFn r) (⟨[], none⟩ : AggState) pre = ⟨[], none⟩ :=
      procList_no_power r pre hpre
    rw [h0, List.foldl_cons, stepFn_no_power_nocur r _ s rfl hs]
  unfold translate procList
  rw [key]

/-- Witness for C9: a lone "hello" sample before the first power sample
changes nothing in the output. -/
theorem claim9_discard_no_open_witness :
    translate 30 [⟨0, none, some "x"⟩, ⟨5, none, some "hello"⟩, ⟨10, some 1, none⟩] =
      translate 30 [⟨0, none, some "x"⟩, ⟨10, some 1, none⟩] :=
  claim9_discard_no_open 30 [⟨0, none, some "x"⟩] ⟨5, none, some "hello"⟩
    [⟨10, some 1, none⟩] (by decide) rfl

theorem parseGo_time_zero (recs : List Step) : ∀ line, parseGo .time line 0 recs = .ok recs := by
  induction recs with
  | nil => intro line; rfl
  | cons step rest ih =>
    intro line
    have hnl : ¬step.time < 0 := Nat.not_lt_zero _
    unfold parseGo
    rw [if_neg hnl, ih (line + 1)]

/-- C2: in absolute-time mode the source never updates `last_time`, which
therefore stays at midnight, so the monotonicity check `step.time <
last_time` can never fire: a strictly decreasing input (01:00:00 followed
by 00:30:00) is accepted unchanged, and in fact every record list is
accepted. The claim describes the commented intent of the code ("check if
time is monotonic ascending"), which the code fails to implement. -/
theorem claim2_time_mode_never_errors :
    parse_records .time [⟨3600, some 100, none⟩, ⟨1800, some 100, none⟩] =
      .ok [⟨3600, some 100, none⟩, ⟨1800, some 100, none⟩] ∧
    ∀ recs : List Step, parse_records .time recs = .ok recs :=
  ⟨rfl, fun recs => parseGo_time_zero recs 1⟩

theorem parseGo_duration (recs : List Step) :
    ∀ line last, last < 86400 →
      ∃ out, parseGo .duration line last recs = .ok out ∧ out.length = recs.length ∧
        ∀ i : Fin out.length,
          (out.get i).time = (last + ((recs.take i).map Step.time).sum) % 86400 := by
  induction recs with
  | nil =>
    intro line last hlast
    exact ⟨[], rfl, rfl, fun i => i.elim0⟩
  | cons step rest ih =>
    intro line last hlast
    obtain ⟨out2, hout2, hlen2, hidx2⟩ :=
      ih (line + 1) ((last + step.time) % 86400) (Nat.mod_lt _ (by omega))
    refine ⟨{ step with time := last } :: out2, ?_, by simp [hlen2], ?_⟩
    · unfold parseGo
      rw [hout2]
    · intro i
      induction i using Fin.cases with
      | zero =>
        simpa using (Nat.mod_eq_of_lt hlast).symm
      | succ j =>
        rw [List.get_cons_succ', hidx2 j]
        simp only [Fin.val_succ, List.take_succ_cons, List.map_cons, List.sum_cons,
          Nat.mod_add_mod]
        congr 1
        omega

/-- C6 (amended): in duration mode processing always succeeds, the first
row's resolved time is 0, and row `i`'s resolved time is the sum of the
duration values of the preceding rows reduced modulo 86400 — the running
clock is a time of day and wraps at midnight. -/
theorem claim6_duration_mode_times (recs : List Step) :
    ∃ out, parse_records .duration recs = .ok out ∧ out.length = recs.length ∧
      ∀ i : Fin out.length,
        (out.get i).time = ((recs.take i).map Step.time).sum % 86400 := by
  obtain ⟨out, h1, h2, h3⟩ := parseGo_duration recs 1 0 (by omega)
  exact ⟨out, h1, h2, fun i => by simpa using h3 i⟩

/-- C6 counterexample: durations 23:00:00, 02:00:00, 00:00:10 resolve the
third row to 3600 seconds (the clock wrapped at midnight), not to the
plain sum 90000 the claim demands. -/
theorem claim6_counterexample :
    parse_records .duration [⟨82800, some 1, none⟩, ⟨7200, some 1, none⟩, ⟨10, some 1, none⟩] =
      .ok [⟨0, some 1, none⟩, ⟨82800, some 1, none⟩, ⟨3600, some 1, none⟩] ∧
    (82800 + 7200 : Nat) = 90000 ∧ (3600 : Nat) ≠ 90000 :=
  ⟨rfl, rfl, by decide⟩

end C2Z
